import Mathlib

/-!
Verification of the sv-video-library scripts (generate_thumbnails.py /
update_videos.py) against their natural-language specification.

The Python code is shallowly embedded: strings are modelled as `List Char`
(Python strings are sequences of code points), the filesystem effects of the
scripts are modelled by explicit state records, and the external transcoder
is modelled by a boolean success oracle.  Every definition mirrors a
function of the source file; definitions that instead transcribe the words
of the specification are named with a `spec` prefix and are compared with
the source-derived definitions in refinement theorems.
-/

namespace SVLib

/-- Code points of a Lean string literal, the model of a Python `str`. -/
def s2l (s : String) : List Char := s.data

/-- Model of the Python substring test `pat in s` (case sensitive). -/
def containsSub (s pat : List Char) : Bool :=
  match s with
  | [] => pat.isEmpty
  | _ :: cs => pat.isPrefixOf s || containsSub cs pat

theorem containsSub_iff (s pat : List Char) :
    containsSub s pat = true ↔ pat <:+: s := by
  induction s with
  | nil =>
    simp [containsSub, List.isEmpty_iff, List.infix_nil]
  | cons c cs ih =>
    simp only [containsSub, Bool.or_eq_true, List.isPrefixOf_iff_prefix, ih]
    constructor
    · rintro (h | h)
      · exact h.isInfix
      · exact h.trans (List.suffix_cons c cs).isInfix
    · intro h
      rcases List.infix_cons_iff.mp h with h | h
      · exact Or.inl h
      · exact Or.inr h

/-- Fuel-driven core of the Python string method `s.replace(old, new)`:
replaces the occurrences of `old` left to right, non-overlapping.  The fuel
argument only serves to make the skipping recursion structural; the wrapper
`strReplace` passes enough fuel for it never to run out.  (Python
`replace` with an empty pattern inserts `new` everywhere; the source only
ever calls it with non-empty patterns, and the guard keeps that case out.) -/
def strReplaceF : Nat → List Char → List Char → List Char → List Char
  | _, [], _, _ => []
  | 0, c :: cs, _, _ => c :: cs
  | fuel + 1, c :: cs, old, new =>
    if old ≠ [] ∧ old.isPrefixOf (c :: cs) then
      new ++ strReplaceF fuel ((c :: cs).drop old.length) old new
    else
      c :: strReplaceF fuel cs old new

/-- Model of Python `s.replace(old, new)` for non-empty `old`. -/
def strReplace (s old new : List Char) : List Char :=
  strReplaceF s.length s old new

theorem strReplaceF_congr (old new : List Char) :
    ∀ f1 f2 s, s.length ≤ f1 → s.length ≤ f2 →
      strReplaceF f1 s old new = strReplaceF f2 s old new := by
  intro f1
  induction f1 with
  | zero =>
    intro f2 s h1 _
    have hs : s = [] := List.eq_nil_of_length_eq_zero (Nat.le_zero.mp h1)
    subst hs
    cases f2 <;> rfl
  | succ n ih =>
    intro f2 s h1 h2
    match s, f2 with
    | [], f2 => cases f2 <;> rfl
    | c :: cs, 0 => simp at h2
    | c :: cs, g + 1 =>
      simp only [strReplaceF]
      by_cases h : old ≠ [] ∧ old.isPrefixOf (c :: cs)
      · rw [if_pos h, if_pos h]
        have hpos : 0 < old.length := List.length_pos.mpr h.1
        have hlen : ((c :: cs).drop old.length).length ≤ cs.length := by
          simp only [List.length_drop, List.length_cons]
          omega
        rw [ih g _ (le_trans hlen (Nat.le_of_succ_le_succ h1))
            (le_trans hlen (Nat.le_of_succ_le_succ h2))]
      · rw [if_neg h, if_neg h]
        rw [ih g cs (Nat.le_of_succ_le_succ h1) (Nat.le_of_succ_le_succ h2)]

theorem strReplace_nil (old new : List Char) : strReplace [] old new = [] := rfl

theorem strReplace_cons_pos {c : Char} {cs old : List Char} (new : List Char)
    (h1 : old ≠ []) (h2 : old.isPrefixOf (c :: cs)) :
    strReplace (c :: cs) old new
      = new ++ strReplace ((c :: cs).drop old.length) old new := by
  show strReplaceF (cs.length + 1) (c :: cs) old new = _
  simp only [strReplaceF, if_pos (And.intro h1 h2)]
  have hpos : 0 < old.length := List.length_pos.mpr h1
  have hlen : ((c :: cs).drop old.length).length ≤ cs.length := by
    simp only [List.length_drop, List.length_cons]
    omega
  exact congrArg _ (strReplaceF_congr old new cs.length _ _ hlen le_rfl)

theorem strReplace_cons_neg {c : Char} {cs old : List Char} (new : List Char)
    (h : ¬(old ≠ [] ∧ old.isPrefixOf (c :: cs))) :
    strReplace (c :: cs) old new = c :: strReplace cs old new := by
  show strReplaceF (cs.length + 1) (c :: cs) old new = _
  simp only [strReplaceF, if_neg h]
  rfl

/-- Replacing a non-empty pattern by itself is the identity; this is why the
replacements table of `generate_title` (each key mapped to itself) has no
effect. -/
theorem strReplace_self (old : List Char) (h : old ≠ []) (s : List Char) :
    strReplace s old old = s := by
  have main : ∀ n (s : List Char), s.length ≤ n → strReplace s old old = s := by
    intro n
    induction n with
    | zero =>
      intro s hs
      have hnil : s = [] := List.eq_nil_of_length_eq_zero (Nat.le_zero.mp hs)
      rw [hnil, strReplace_nil]
    | succ n ih =>
      intro s hs
      cases s with
      | nil => exact strReplace_nil old old
      | cons c cs =>
        by_cases h2 : old.isPrefixOf (c :: cs)
        · rw [strReplace_cons_pos old h h2]
          obtain ⟨t, ht⟩ := List.isPrefixOf_iff_prefix.mp h2
          have hdrop : (c :: cs).drop old.length = t := by
            rw [← ht, List.drop_left]
          have hlt : old.length + t.length = cs.length + 1 := by
            have := congrArg List.length ht
            simpa using this
          have hpos : 0 < old.length := List.length_pos.mpr h
          have hsn : cs.length + 1 ≤ n + 1 := by
            simpa using hs
          rw [hdrop, ih t (by omega), ht]
        · rw [strReplace_cons_neg old (fun hc => h2 hc.2)]
          rw [ih cs (Nat.le_of_succ_le_succ hs)]
  exact main s.length s le_rfl

/-- Model of the Python string method `s.strip(chars)`: removes from both
ends every character belonging to the given character set. -/
def pyStrip (s chars : List Char) : List Char :=
  ((s.dropWhile (fun c => chars.contains c)).reverse.dropWhile
      (fun c => chars.contains c)).reverse

/-- Index of the last dot of a name (Python `name.rfind(".")`), if any. -/
def rfindDot (name : List Char) : Option Nat :=
  match name.reverse.findIdx? (fun c => c == '.') with
  | some j => some (name.length - 1 - j)
  | none => none

/-- Model of `pathlib.PurePath.stem` on a plain file name: the name with
its final suffix removed, where a suffix must start strictly inside the
name and must be non-empty. -/
def stem (name : List Char) : List Char :=
  match rfindDot name with
  | some i => if 0 < i ∧ i < name.length - 1 then name.take i else name
  | none => name

/-- Model of `VideoDataUpdater.generate_title` (the argument is the stem of
the file name, as at the call site): every `.mp4` occurrence is removed,
underscores become ` - `, a table of identity replacements is applied, and
finally all outer space or hyphen characters are stripped. -/
def generate_title (filename : List Char) : List Char :=
  pyStrip
    (strReplace (strReplace (strReplace (strReplace
      (strReplace (strReplace filename (s2l ".mp4") []) (s2l "_") (s2l " - "))
      (s2l "幾何圖形 - ") (s2l "幾何圖形 - "))
      (s2l "抽象圖案 - ") (s2l "抽象圖案 - "))
      (s2l "簡約背景 - ") (s2l "簡約背景 - "))
      (s2l "音波視覺化 - ") (s2l "音波視覺化 - "))
    (s2l " -")

/-- The title the updater derives for a scanned file name
(`self.generate_title(file_path.stem)` in `scan_folder`). -/
def title_of (filename : List Char) : List Char := generate_title (stem filename)

/-- The separator the specification speaks about. -/
def sepStr : List Char := s2l " - "

/-- Fuel-driven removal of leading instances of the separator. -/
def stripSepFrontF : Nat → List Char → List Char
  | 0, s => s
  | fuel + 1, s =>
    if sepStr.isPrefixOf s then stripSepFrontF fuel (s.drop sepStr.length) else s

/-- Removal of the leading instances of the separator `" - "`. -/
def stripSepFront (s : List Char) : List Char := stripSepFrontF s.length s

/-- Removal of the outer instances of the separator from both ends (the
separator is a palindrome, so stripping it in front of the reversal strips
trailing instances). -/
def specTrimSep (s : List Char) : List Char :=
  (stripSepFront (stripSepFront s).reverse).reverse

/-- Transcription of the words of claim C5: extension stripped, every
underscore replaced by the separator, outer instances of the separator
trimmed from both ends, and nothing else. -/
def specTitleClaim (filename : List Char) : List Char :=
  specTrimSep (strReplace (stem filename) (s2l "_") sepStr)

/-- Transcription of the amended claim C5: stem with every `.mp4`
occurrence removed, underscores replaced by the separator, then all outer
space or hyphen characters stripped from both ends. -/
def specTitleAmended (filename : List Char) : List Char :=
  pyStrip (strReplace (strReplace (stem filename) (s2l ".mp4") []) (s2l "_") sepStr)
    (s2l " -")

/-- C5 (counterexample): the code strips the outer characters of the set
space/hyphen, not outer instances of the three-character separator, and it
removes every `.mp4` occurrence from the stem; on the file names `a-.mp4`
and `a.mp4.mp4` the derived title differs from the claimed one. -/
theorem c5_counterexample :
    title_of (s2l "a-.mp4") ≠ specTitleClaim (s2l "a-.mp4") ∧
    title_of (s2l "a.mp4.mp4") ≠ specTitleClaim (s2l "a.mp4.mp4") := by
  decide

/-- C5 (amended): for every filename the derived title equals the stem with
every `.mp4` occurrence removed, each underscore replaced by ` - `, and all
outer space or hyphen characters trimmed from both ends; the two examples
of the specification hold. -/
theorem c5_title_characterization :
    (∀ f, title_of f = specTitleAmended f)
    ∧ title_of (s2l "a_b_c.mp4") = s2l "a - b - c"
    ∧ title_of (s2l "_leading_.mp4") = s2l "leading" := by
  refine ⟨?_, by decide, by decide⟩
  intro f
  unfold title_of generate_title specTitleAmended sepStr
  rw [strReplace_self (s2l "幾何圖形 - ") (by decide),
      strReplace_self (s2l "抽象圖案 - ") (by decide),
      strReplace_self (s2l "簡約背景 - ") (by decide),
      strReplace_self (s2l "音波視覺化 - ") (by decide)]

/-- The fixed trending keyword list of `is_trending` (update_videos.py). -/
def trending_keywords : List (List Char) :=
  [s2l "極光", s2l "台北", s2l "粒子", s2l "彩色波", s2l "聽團仔",
   s2l "80 年代", s2l "可愛", s2l "日落", s2l "陽光", s2l "波光",
   s2l "人潮", s2l "三角形"]

/-- Model of `VideoDataUpdater.is_trending`: does the filename contain any
of the fixed keywords as a substring. -/
def is_trending (filename : List Char) : Bool :=
  trending_keywords.any (fun k => containsSub filename k)

/-- C7: is_trending returns true iff the filename contains, as a
case-sensitive substring, at least one keyword of the fixed configured
keyword list, and false otherwise. -/
theorem c7_is_trending_iff_keyword_infix (filename : List Char) :
    is_trending filename = true ↔
      ∃ k ∈ trending_keywords, k <:+: filename := by
  simp only [is_trending, List.any_eq_true, containsSub_iff]

/-- The opening delimiter of the videoData region of the html file, the
literal of the first regex group of `update_html`. -/
def openMarker : List Char := s2l "const videoData = \x7b"

/-- The closing delimiter of the videoData region, the literal of the third
regex group of `update_html`. -/
def closeMarker : List Char := s2l "\x7d;"

/-- Scan for the nearest occurrence of the closing marker: on success
returns the interior before it and the remainder after it.  This is the
behaviour of the non-greedy group `(.*?)` followed by the closing literal
under `re.DOTALL`. -/
def splitAtClose : List Char → Option (List Char × List Char)
  | [] => none
  | c :: cs =>
    if closeMarker.isPrefixOf (c :: cs) then
      some ([], (c :: cs).drop closeMarker.length)
    else
      match splitAtClose cs with
      | some p => some (c :: p.1, p.2)
      | none => none

theorem splitAtClose_length :
    ∀ (l : List Char) (p : List Char × List Char),
      splitAtClose l = some p → p.2.length ≤ l.length := by
  intro l
  induction l with
  | nil => intro p h; simp [splitAtClose] at h
  | cons c cs ih =>
    intro p h
    simp only [splitAtClose] at h
    by_cases hc : closeMarker.isPrefixOf (c :: cs) = true
    · rw [if_pos hc] at h
      cases h
      simp only [List.length_drop, List.length_cons]
      omega
    · rw [if_neg hc] at h
      cases hq : splitAtClose cs with
      | none => rw [hq] at h; cases h
      | some q =>
        rw [hq] at h
        cases h
        have := ih q hq
        simp only [List.length_cons]
        omega

/-- Fuel-driven core of the regex substitution
`re.sub(r"(const videoData = \x7b)(.*?)(\x7d;)", g1 + new + g3, html,
flags=re.DOTALL)`: scan left to right; at a position where the opening
literal matches and a closing marker follows, keep both markers, emit the
new interior, and continue after the match; otherwise keep the character
and move one position right.  The fuel argument only makes the skipping
recursion structural; the wrapper `subAll` passes enough for it never to
run out. -/
def subAllF : Nat → List Char → List Char → List Char
  | _, [], _ => []
  | 0, c :: cs, _ => c :: cs
  | fuel + 1, c :: cs, nd =>
    if openMarker.isPrefixOf (c :: cs) then
      match splitAtClose ((c :: cs).drop openMarker.length) with
      | some p => openMarker ++ nd ++ closeMarker ++ subAllF fuel p.2 nd
      | none => c :: subAllF fuel cs nd
    else c :: subAllF fuel cs nd

/-- The regex substitution of `update_html` on a whole document. -/
def subAll (s nd : List Char) : List Char := subAllF s.length s nd

theorem subAllF_congr (nd : List Char) :
    ∀ f1 f2 s, s.length ≤ f1 → s.length ≤ f2 →
      subAllF f1 s nd = subAllF f2 s nd := by
  intro f1
  induction f1 with
  | zero =>
    intro f2 s h1 _
    have hs : s = [] := List.eq_nil_of_length_eq_zero (Nat.le_zero.mp h1)
    subst hs
    cases f2 <;> rfl
  | succ n ih =>
    intro f2 s h1 h2
    match s, f2 with
    | [], f2 => cases f2 <;> rfl
    | c :: cs, 0 => simp at h2
    | c :: cs, g + 1 =>
      simp only [subAllF]
      by_cases ho : openMarker.isPrefixOf (c :: cs) = true
      · rw [if_pos ho, if_pos ho]
        cases hsp : splitAtClose ((c :: cs).drop openMarker.length) with
        | none =>
          show c :: subAllF n cs nd = c :: subAllF g cs nd
          rw [ih g cs (Nat.le_of_succ_le_succ h1) (Nat.le_of_succ_le_succ h2)]
        | some p =>
          show openMarker ++ nd ++ closeMarker ++ subAllF n p.2 nd
              = openMarker ++ nd ++ closeMarker ++ subAllF g p.2 nd
          have hop : 0 < openMarker.length := by decide
          have hlen : p.2.length ≤ cs.length := by
            have := splitAtClose_length _ _ hsp
            simp only [List.length_drop, List.length_cons] at this
            omega
          rw [ih g p.2 (le_trans hlen (Nat.le_of_succ_le_succ h1))
              (le_trans hlen (Nat.le_of_succ_le_succ h2))]
      · rw [if_neg ho, if_neg ho]
        rw [ih g cs (Nat.le_of_succ_le_succ h1) (Nat.le_of_succ_le_succ h2)]

theorem subAll_nil (nd : List Char) : subAll [] nd = [] := rfl

theorem subAll_pos {s : List Char} (hne : s ≠ [])
    (hpre : openMarker.isPrefixOf s = true) {p : List Char × List Char}
    (hsp : splitAtClose (s.drop openMarker.length) = some p) (nd : List Char) :
    subAll s nd = openMarker ++ nd ++ closeMarker ++ subAll p.2 nd := by
  obtain ⟨c, cs, rfl⟩ := List.exists_cons_of_ne_nil hne
  show subAllF (cs.length + 1) (c :: cs) nd = _
  simp only [subAllF]
  rw [if_pos hpre, hsp]
  have hop : 0 < openMarker.length := by decide
  have hlen : p.2.length ≤ cs.length := by
    have := splitAtClose_length _ _ hsp
    simp only [List.length_drop, List.length_cons] at this
    omega
  show openMarker ++ nd ++ closeMarker ++ subAllF cs.length p.2 nd
      = openMarker ++ nd ++ closeMarker ++ subAll p.2 nd
  exact congrArg _ (subAllF_congr nd cs.length p.2.length p.2 hlen le_rfl)

theorem subAll_noclose {c : Char} {cs : List Char}
    (hpre : openMarker.isPrefixOf (c :: cs) = true)
    (hsp : splitAtClose ((c :: cs).drop openMarker.length) = none) (nd : List Char) :
    subAll (c :: cs) nd = c :: subAll cs nd := by
  show subAllF (cs.length + 1) (c :: cs) nd = _
  simp only [subAllF]
  rw [if_pos hpre, hsp]
  rfl

theorem subAll_neg {c : Char} {cs : List Char}
    (h : ¬ openMarker.isPrefixOf (c :: cs) = true) (nd : List Char) :
    subAll (c :: cs) nd = c :: subAll cs nd := by
  show subAllF (cs.length + 1) (c :: cs) nd = _
  simp only [subAllF]
  rw [if_neg h]
  rfl

/-- Does the document hold at least one delimited region, i.e. would the
regex of `update_html` match at least once. -/
def hasRegion : List Char → Bool
  | [] => false
  | c :: cs =>
    (openMarker.isPrefixOf (c :: cs)
      && (splitAtClose ((c :: cs).drop openMarker.length)).isSome)
    || hasRegion cs

/-- On a document with no delimited region the substitution is the
identity. -/
theorem subAll_no_region :
    ∀ {s : List Char}, hasRegion s = false → ∀ nd, subAll s nd = s := by
  intro s
  induction s with
  | nil => intro _ nd; rfl
  | cons c cs ih =>
    intro h nd
    by_cases ho : openMarker.isPrefixOf (c :: cs) = true
    · cases hsp : splitAtClose ((c :: cs).drop openMarker.length) with
      | none =>
        have hcs : hasRegion cs = false := by
          simp [hasRegion, ho, hsp] at h
          exact h
        rw [subAll_noclose ho hsp, ih hcs]
      | some p =>
        exfalso
        simp [hasRegion, ho, hsp] at h
    · have hcs : hasRegion cs = false := by
        simp [hasRegion, ho] at h
        exact h
      rw [subAll_neg ho, ih hcs]

/-- Pure core of `VideoDataUpdater.update_html`: the first component tells
whether the update succeeded (the source returns `True` and writes exactly
then), the second is the content of the html file after the call (the
source writes the substituted text only in the success branch, so on
failure the content is the unmodified input). -/
def update_html (html nd : List Char) : Bool × List Char :=
  if subAll html nd = html then (false, html) else (true, subAll html nd)

/-- C1 (counterexample): the failure test of update_html is textual
equality of the substitution result with the original, not a zero-match
test; the document `const videoData = \x7bX\x7d;` holds a delimited region
(one match), yet with new region content `X` the substitution is a no-op
and update_html reports failure. -/
theorem c1_counterexample :
    hasRegion (openMarker ++ s2l "X" ++ closeMarker) = true
    ∧ (update_html (openMarker ++ s2l "X" ++ closeMarker) (s2l "X")).1 = false := by
  decide

/-- C1 (amended): update_html fails whenever the target holds no delimited
region (zero matches), though not only then — it also fails when regions
exist but the substituted text coincides with the original; whenever it
fails the target file content is untouched, and whenever it succeeds the
written content differs from the original. -/
theorem c1_update_html_failure :
    (∀ html nd, hasRegion html = false → update_html html nd = (false, html))
    ∧ (∀ html nd, (update_html html nd).1 = false → (update_html html nd).2 = html)
    ∧ (∀ html nd, (update_html html nd).1 = true →
        (update_html html nd).2 = subAll html nd ∧ subAll html nd ≠ html) := by
  refine ⟨?_, ?_, ?_⟩
  · intro html nd h
    unfold update_html
    rw [subAll_no_region h nd]
    simp
  · intro html nd h
    unfold update_html at h ⊢
    by_cases hc : subAll html nd = html
    · rw [if_pos hc]
    · rw [if_neg hc] at h
      simp at h
  · intro html nd h
    unfold update_html at h ⊢
    by_cases hc : subAll html nd = html
    · rw [if_pos hc] at h
      simp at h
    · rw [if_neg hc]
      exact ⟨rfl, hc⟩

/-- C1 (witness): a document with no delimiter region is reported as a
failure and left as it was. -/
theorem c1_update_html_failure_witness :
    update_html (s2l "PRE POST") (s2l "X") = (false, s2l "PRE POST") :=
  c1_update_html_failure.1 (s2l "PRE POST") (s2l "X") (by decide)

/-- When the closing marker first occurs exactly after `old`, the scan
returns `old` as interior and the remainder after the marker. -/
theorem splitAtClose_of_first (old post : List Char)
    (hb : ∀ i, i < old.length →
      ¬ closeMarker.isPrefixOf ((old ++ (closeMarker ++ post)).drop i) = true) :
    splitAtClose (old ++ (closeMarker ++ post)) = some (old, post) := by
  induction old with
  | nil =>
    have hclose : closeMarker.isPrefixOf ('\x7d' :: ';' :: post) = true :=
      List.isPrefixOf_iff_prefix.mpr ⟨post, rfl⟩
    show splitAtClose ('\x7d' :: ';' :: post) = some ([], post)
    simp only [splitAtClose]
    rw [if_pos hclose]
    rfl
  | cons d ds ih =>
    have h0 : ¬ closeMarker.isPrefixOf (d :: (ds ++ (closeMarker ++ post))) = true := by
      have := hb 0 (by simp)
      simpa using this
    have hbs : ∀ i, i < ds.length →
        ¬ closeMarker.isPrefixOf ((ds ++ (closeMarker ++ post)).drop i) = true := by
      intro i hi
      have := hb (i + 1) (by simp only [List.length_cons]; omega)
      simpa [List.cons_append, List.drop_succ_cons] using this
    show splitAtClose (d :: (ds ++ (closeMarker ++ post))) = some (d :: ds, post)
    simp only [splitAtClose]
    rw [if_neg h0, ih hbs]

/-- C2: when the document decomposes as `pre ++ open ++ old ++ close ++
post` with no opening-marker occurrence starting inside `pre`, no
closing-marker occurrence starting inside `old`, and no further region in
`post`, the substitution replaces exactly the interior `old` by the new
content: every byte outside the delimiters and the two delimiter strings
themselves are preserved verbatim. -/
theorem c2_substitution (pre old post nd : List Char)
    (ha : ∀ i, i < pre.length →
      ¬ openMarker.isPrefixOf
          ((pre ++ (openMarker ++ (old ++ (closeMarker ++ post)))).drop i) = true)
    (hb : ∀ i, i < old.length →
      ¬ closeMarker.isPrefixOf ((old ++ (closeMarker ++ post)).drop i) = true)
    (hc : hasRegion post = false) :
    subAll (pre ++ (openMarker ++ (old ++ (closeMarker ++ post)))) nd
      = pre ++ (openMarker ++ (nd ++ (closeMarker ++ post))) := by
  induction pre with
  | nil =>
    simp only [List.nil_append]
    have hne : openMarker ++ (old ++ (closeMarker ++ post)) ≠ [] := by
      intro h
      exact absurd (List.append_eq_nil.mp h).1 (by decide)
    have hpre : openMarker.isPrefixOf
        (openMarker ++ (old ++ (closeMarker ++ post))) = true :=
      List.isPrefixOf_iff_prefix.mpr ⟨old ++ (closeMarker ++ post), rfl⟩
    have hsp : splitAtClose
        ((openMarker ++ (old ++ (closeMarker ++ post))).drop openMarker.length)
        = some (old, post) := by
      rw [List.drop_left]
      exact splitAtClose_of_first old post hb
    rw [subAll_pos hne hpre hsp nd]
    rw [subAll_no_region hc nd]
    simp [List.append_assoc]
  | cons a pre ih =>
    have h0 : ¬ openMarker.isPrefixOf
        (a :: (pre ++ (openMarker ++ (old ++ (closeMarker ++ post))))) = true := by
      have := ha 0 (by simp)
      simpa using this
    have hrec := ih (fun i hi => by
      have := ha (i + 1) (by simp only [List.length_cons]; omega)
      simpa [List.cons_append, List.drop_succ_cons] using this)
    show subAll (a :: (pre ++ (openMarker ++ (old ++ (closeMarker ++ post))))) nd = _
    rw [subAll_neg h0 nd, hrec]
    rfl

/-- C2 (witness): the document example of the specification, with `PRE`
before the opening marker, interior `old`, and `POST` after the closing
marker, rewritten with new interior `X`. -/
theorem c2_substitution_witness :
    subAll (s2l "PRE" ++ (openMarker ++ (s2l "old" ++ (closeMarker ++ s2l "POST"))))
        (s2l "X")
      = s2l "PRE" ++ (openMarker ++ (s2l "X" ++ (closeMarker ++ s2l "POST"))) :=
  c2_substitution (s2l "PRE") (s2l "old") (s2l "POST") (s2l "X")
    (by decide) (by decide) (by decide)

/-- Decimal digit as a character. -/
def digitChar (n : Nat) : Char := Char.ofNat (48 + n)

/-- Fuel-driven decimal rendering of a natural number. -/
def natDigitsF : Nat → Nat → List Char
  | 0, _ => []
  | fuel + 1, n =>
    if n < 10 then [digitChar n] else natDigitsF fuel (n / 10) ++ [digitChar (n % 10)]

/-- Decimal rendering of a natural number. -/
def natDigits (n : Nat) : List Char := natDigitsF (n + 1) n

/-- Model of the Python format spec `{:02d}` on a non-negative value. -/
def pad2 (n : Nat) : List Char := if n < 10 then '0' :: natDigits n else natDigits n

/-- One binary megabyte, the unit of `size_mb` in `estimate_duration`. -/
def mb : Nat := 1048576

/-- Model of `VideoDataUpdater.estimate_duration`.  The input is the result
of the `stat` call: `none` when reading the byte size raises (the bare
`except` of the source), `some bytes` otherwise.  The source computes
`size_mb = bytes / 2**20` in floating point and truncates with `int`; on
the exact-arithmetic level this is natural floor division, written here
with the multiplications folded in (`int(size_mb * 10) = bytes * 10 / mb`,
and `int(size_mb // 10) = bytes / mb / 10`). -/
def estimate_duration : Option Nat → List Char
  | none => s2l "1:30"
  | some bytes =>
    if bytes < 3 * mb then s2l "0:" ++ pad2 (20 + bytes * 10 / mb)
    else if bytes < 10 * mb then s2l "0:" ++ pad2 (40 + bytes * 5 / mb)
    else if bytes < 30 * mb then s2l "1:" ++ pad2 (bytes * 2 / mb)
    else s2l "2:" ++ pad2 (bytes / mb / 10)

/-- Band below 3 MB: base offset 20 seconds plus 10 seconds per MB. -/
def durBand1 (bytes : Nat) : List Char := s2l "0:" ++ pad2 (20 + bytes * 10 / mb)

/-- Band from 3 MB below 10 MB: base offset 40 seconds plus 5 seconds per MB. -/
def durBand2 (bytes : Nat) : List Char := s2l "0:" ++ pad2 (40 + bytes * 5 / mb)

/-- Band from 10 MB below 30 MB: one minute plus 2 seconds per MB. -/
def durBand3 (bytes : Nat) : List Char := s2l "1:" ++ pad2 (bytes * 2 / mb)

/-- Band of at least 30 MB: two minutes plus one second per 10 MB. -/
def durBand4 (bytes : Nat) : List Char := s2l "2:" ++ pad2 (bytes / mb / 10)

/-- C6: estimate_duration maps the byte size into exactly four bands
(below 3 MB, 3 to 10 MB, 10 to 30 MB, at least 30 MB), each band producing
its duration string from a fixed base offset plus a linear term in the
size in MB; a 2 MB file falls in the sub-3MB band and yields `0:40`, a
25 MB file falls in the 10-30MB band and yields `1:50`. -/
theorem c6_duration_bands :
    (∀ b, b < 3 * mb → estimate_duration (some b) = durBand1 b)
    ∧ (∀ b, 3 * mb ≤ b → b < 10 * mb → estimate_duration (some b) = durBand2 b)
    ∧ (∀ b, 10 * mb ≤ b → b < 30 * mb → estimate_duration (some b) = durBand3 b)
    ∧ (∀ b, 30 * mb ≤ b → estimate_duration (some b) = durBand4 b)
    ∧ estimate_duration (some (2 * mb)) = s2l "0:40"
    ∧ estimate_duration (some (25 * mb)) = s2l "1:50" := by
  refine ⟨?_, ?_, ?_, ?_, by decide, by decide⟩
  · intro b h
    simp only [estimate_duration, durBand1, if_pos h]
  · intro b h1 h2
    simp only [estimate_duration, durBand2]
    rw [if_neg (by omega), if_pos h2]
  · intro b h1 h2
    simp only [estimate_duration, durBand3]
    rw [if_neg (by omega), if_neg (by omega), if_pos h2]
  · intro b h1
    simp only [estimate_duration, durBand4]
    rw [if_neg (by omega), if_neg (by omega), if_neg (by omega)]

/-- C6 (witness): the 2 MB and 25 MB examples discharge the band bounds. -/
theorem c6_duration_bands_witness :
    estimate_duration (some (2 * mb)) = durBand1 (2 * mb)
    ∧ estimate_duration (some (25 * mb)) = durBand3 (25 * mb) :=
  ⟨c6_duration_bands.1 (2 * mb) (by decide),
   c6_duration_bands.2.2.1 (25 * mb) (by decide) (by decide)⟩

/-- C10: when the byte size of the file cannot be read (the stat call
raises, the `except` branch of the source), estimate_duration returns the
fixed fallback duration string `1:30`; being a total function of the stat
outcome, it raises nothing itself. -/
theorem c10_estimate_duration_fallback : estimate_duration none = s2l "1:30" := rfl

/-- Filesystem state seen by the thumbnail-fill phase: the set of existing
thumbnail files, the directories created so far, and the number of
transcoder invocations performed. -/
structure FS where
  files : List (List Char)
  dirs : List (List Char)
  calls : Nat
deriving DecidableEq

/-- Thumbnail path computed by `generate_single_thumbnail`:
`self.thumbnail_dir / video_info["path"].replace("街聲波影片/", "").replace(".mp4", ".jpg")`
(rendered relative to the base directory). -/
def thumbPath (relPath : List Char) : List Char :=
  s2l "thumbnails/" ++ strReplace (strReplace relPath (s2l "街聲波影片/") [])
    (s2l ".mp4") (s2l ".jpg")

/-- Parent directory of a path (`Path.parent`): everything before the last
slash. -/
def parentDir (p : List Char) : List Char :=
  ((p.reverse.dropWhile (fun c => c ≠ '/')).drop 1).reverse

/-- Model of `VideoDataUpdater.generate_single_thumbnail`: if the computed
thumbnail path already exists, return `False` at once (no directory
creation, no transcoder call, no write); otherwise create the parent
directory, invoke the transcoder (the oracle `ffmpegOk` tells whether the
invocation succeeds), and on success the thumbnail file exists afterwards. -/
def generate_single_thumbnail (fs : FS) (ffmpegOk : Bool) (relPath : List Char) :
    Bool × FS :=
  if thumbPath relPath ∈ fs.files then (false, fs)
  else if ffmpegOk then
    (true, ⟨thumbPath relPath :: fs.files, parentDir (thumbPath relPath) :: fs.dirs,
      fs.calls + 1⟩)
  else
    (false, ⟨fs.files, parentDir (thumbPath relPath) :: fs.dirs, fs.calls + 1⟩)

/-- The loop of `VideoDataUpdater.generate_thumbnails` over every scanned
video record: runs `generate_single_thumbnail` on each record path in turn
and counts how many thumbnails were newly generated. -/
def fillPhase (ok : List Char → Bool) : List (List Char) → FS → Nat × FS
  | [], fs => (0, fs)
  | v :: vs, fs =>
    match generate_single_thumbnail fs (ok v) v with
    | (b, fs1) =>
      match fillPhase ok vs fs1 with
      | (n, fs2) => (n + (if b then 1 else 0), fs2)

theorem fillPhase_cons (ok : List Char → Bool) (v : List Char)
    (vs : List (List Char)) (fs : FS) :
    fillPhase ok (v :: vs) fs
      = ((fillPhase ok vs (generate_single_thumbnail fs (ok v) v).2).1
          + (if (generate_single_thumbnail fs (ok v) v).1 then 1 else 0),
         (fillPhase ok vs (generate_single_thumbnail fs (ok v) v).2).2) := by
  show (match generate_single_thumbnail fs (ok v) v with
    | (b, fs1) => match fillPhase ok vs fs1 with
      | (n, fs2) => (n + (if b then 1 else 0), fs2)) = _
  cases generate_single_thumbnail fs (ok v) v with
  | mk b fs1 =>
    show (match fillPhase ok vs fs1 with
      | (n, fs2) => (n + (if b then 1 else 0), fs2)) = _
    cases fillPhase ok vs fs1 with
    | mk n fs2 => rfl

theorem generate_single_thumbnail_files (fs : FS) (ok : Bool) (rel : List Char) :
    (generate_single_thumbnail fs ok rel).2.files = fs.files
    ∨ (generate_single_thumbnail fs ok rel).2.files = thumbPath rel :: fs.files := by
  unfold generate_single_thumbnail
  by_cases h1 : thumbPath rel ∈ fs.files
  · rw [if_pos h1]
    exact Or.inl rfl
  · rw [if_neg h1]
    by_cases h2 : ok = true
    · rw [if_pos h2]
      exact Or.inr rfl
    · rw [if_neg h2]
      exact Or.inl rfl

/-- C3: the thumbnail-fill phase is strictly additive.  First, on a record
whose computed thumbnail path already exists, generate_single_thumbnail is
a complete no-op returning `false` (state unchanged: no transcoder call,
no directory creation, no file write).  Second, the fill phase never
removes an existing thumbnail, so a second run finds every pre-existing
thumbnail still present and skips it.  Third, every file present after the
fill phase either was present before or is the computed thumbnail path of
one of the processed records (only missing thumbnails are created). -/
theorem c3_fill_additive :
    (∀ (fs : FS) (ok : Bool) (rel : List Char), thumbPath rel ∈ fs.files →
        generate_single_thumbnail fs ok rel = (false, fs))
    ∧ (∀ (ok : List Char → Bool) (vids : List (List Char)) (fs : FS)
        (p : List Char), p ∈ fs.files → p ∈ (fillPhase ok vids fs).2.files)
    ∧ (∀ (ok : List Char → Bool) (vids : List (List Char)) (fs : FS)
        (p : List Char), p ∈ (fillPhase ok vids fs).2.files →
        p ∈ fs.files ∨ ∃ v ∈ vids, p = thumbPath v) := by
  have hmono : ∀ (ok : List Char → Bool) (vids : List (List Char)) (fs : FS)
      (p : List Char), p ∈ fs.files → p ∈ (fillPhase ok vids fs).2.files := by
    intro ok vids
    induction vids with
    | nil => intro fs p hp; exact hp
    | cons v vs ih =>
      intro fs p hp
      rw [fillPhase_cons]
      show p ∈ (fillPhase ok vs (generate_single_thumbnail fs (ok v) v).2).2.files
      apply ih
      rcases generate_single_thumbnail_files fs (ok v) v with h | h
      · rw [h]; exact hp
      · rw [h]; exact List.mem_cons_of_mem _ hp
  refine ⟨?_, hmono, ?_⟩
  · intro fs ok rel h
    unfold generate_single_thumbnail
    rw [if_pos h]
  · intro ok vids
    induction vids with
    | nil => intro fs p hp; exact Or.inl hp
    | cons v vs ih =>
      intro fs p hp
      rw [fillPhase_cons] at hp
      have hp2 : p ∈ (fillPhase ok vs (generate_single_thumbnail fs (ok v) v).2).2.files :=
        hp
      rcases ih (generate_single_thumbnail fs (ok v) v).2 p hp2 with hin | ⟨w, hw, hpw⟩
      · rcases generate_single_thumbnail_files fs (ok v) v with h | h
        · rw [h] at hin
          exact Or.inl hin
        · rw [h] at hin
          rcases List.mem_cons.mp hin with heq | hmem
          · exact Or.inr ⟨v, List.mem_cons_self v vs, heq⟩
          · exact Or.inl hmem
      · exact Or.inr ⟨w, List.mem_cons_of_mem _ hw, hpw⟩

/-- C3 (witness): a record whose thumbnail already exists is skipped with
the state untouched. -/
theorem c3_fill_additive_witness :
    generate_single_thumbnail
        ⟨[thumbPath (s2l "街聲波影片/搞怪素材（11）/a.mp4")], [], 0⟩ true
        (s2l "街聲波影片/搞怪素材（11）/a.mp4")
      = (false, ⟨[thumbPath (s2l "街聲波影片/搞怪素材（11）/a.mp4")], [], 0⟩) :=
  c3_fill_additive.1 _ true _ (by decide)

/-- A file of the media tree, together with the outcome the external
transcoder would have on it (the oracle for `generate_thumbnail`). -/
structure FileEntry where
  name : List Char
  good : Bool
deriving DecidableEq

/-- A directory of the media tree: its direct files and subdirectories. -/
inductive DirTree where
  | node : List FileEntry → List DirTree → DirTree

/-- The subdirectories of a directory. -/
def DirTree.subdirs : DirTree → List DirTree
  | .node _ ds => ds

/-- The recognized media extensions of generate_thumbnails.py. -/
def videoExtSet : List (List Char) :=
  [s2l ".mp4", s2l ".mov", s2l ".avi", s2l ".mkv", s2l ".m4v"]

/-- Model of `pathlib.PurePath.suffix` on a plain file name. -/
def suffixOf (name : List Char) : List Char :=
  match rfindDot name with
  | some i => if 0 < i ∧ i < name.length - 1 then name.drop i else []
  | none => []

/-- The discovery test of `process_directory`:
`f.suffix.lower() in video_extensions`. -/
def isVideoFile (name : List Char) : Bool :=
  videoExtSet.contains ((suffixOf name).map Char.toLower)

/-- The three counters threaded through the traversal
(`total_videos`, `success_count`, `error_count`). -/
structure Counts where
  total : Nat
  success : Nat
  error : Nat
deriving DecidableEq

/-- One iteration of the file loop of `process_directory`: a discovered
video bumps the total and, depending on the transcoder outcome, the
success or the error counter; a non-video file is ignored. -/
def tallyFile (acc : Counts) (f : FileEntry) : Counts :=
  if isVideoFile f.name then
    if f.good then
      { acc with total := acc.total + 1, success := acc.success + 1 }
    else
      { acc with total := acc.total + 1, error := acc.error + 1 }
  else acc

mutual

/-- Model of the recursive `process_directory` of generate_thumbnails.py:
first the files of the current directory are processed in order (each
failure merely counted), then every subdirectory is processed. -/
def process_directory : Counts → DirTree → Counts
  | c, .node files subdirs => processSubdirs (files.foldl tallyFile c) subdirs

/-- The subdirectory loop of `process_directory`. -/
def processSubdirs : Counts → List DirTree → Counts
  | c, [] => c
  | c, d :: ds => processSubdirs (process_directory c d) ds

end

/-- Model of `process_video_folder`: the counters start at zero and every
top-level subdirectory of the media root is traversed (direct files of the
root itself are skipped by the `is_dir` filter). -/
def process_video_folder (root : DirTree) : Counts :=
  processSubdirs ⟨0, 0, 0⟩ root.subdirs

mutual

/-- Number of media files a traversal of the directory discovers. -/
def countVids : DirTree → Nat
  | .node files subdirs =>
    (files.filter (fun f => isVideoFile f.name)).length + countVidsList subdirs

/-- Number of media files discovered across a list of directories. -/
def countVidsList : List DirTree → Nat
  | [] => 0
  | d :: ds => countVids d + countVidsList ds

end

theorem tallyFile_total (c : Counts) (f : FileEntry) :
    (tallyFile c f).total = c.total + (if isVideoFile f.name then 1 else 0) := by
  unfold tallyFile
  by_cases hv : isVideoFile f.name = true
  · rw [if_pos hv, if_pos hv]
    by_cases hg : f.good = true
    · rw [if_pos hg]
    · rw [if_neg hg]
  · rw [if_neg hv, if_neg hv]
    omega

theorem tallyFile_se (c : Counts) (f : FileEntry) :
    (tallyFile c f).success + (tallyFile c f).error
      = c.success + c.error + (if isVideoFile f.name then 1 else 0) := by
  unfold tallyFile
  by_cases hv : isVideoFile f.name = true
  · rw [if_pos hv, if_pos hv]
    by_cases hg : f.good = true
    · rw [if_pos hg]
      show c.success + 1 + c.error = c.success + c.error + 1
      omega
    · rw [if_neg hg]
      show c.success + (c.error + 1) = c.success + c.error + 1
      omega
  · rw [if_neg hv, if_neg hv]
    omega

theorem foldl_tallyFile_counts (files : List FileEntry) :
    ∀ c : Counts,
      (files.foldl tallyFile c).total
        = c.total + (files.filter (fun f => isVideoFile f.name)).length
      ∧ (files.foldl tallyFile c).success + (files.foldl tallyFile c).error
        = c.success + c.error + (files.filter (fun f => isVideoFile f.name)).length := by
  induction files with
  | nil => intro c; exact ⟨rfl, rfl⟩
  | cons f fs ih =>
    intro c
    have hstep := ih (tallyFile c f)
    have h1 := tallyFile_total c f
    have h2 := tallyFile_se c f
    simp only [List.foldl_cons, List.filter_cons]
    by_cases hv : isVideoFile f.name = true
    · rw [if_pos hv] at h1 h2 ⊢
      simp only [List.length_cons]
      constructor
      · rw [hstep.1, h1]
        omega
      · rw [hstep.2, h2]
        omega
    · rw [if_neg hv] at h1 h2 ⊢
      constructor
      · rw [hstep.1, h1]
        omega
      · rw [hstep.2, h2]
        omega

mutual

theorem process_directory_counts (c : Counts) (d : DirTree) :
    (process_directory c d).total = c.total + countVids d
    ∧ (process_directory c d).success + (process_directory c d).error
      = c.success + c.error + countVids d :=
  match d with
  | .node files subdirs => by
    have hfold := foldl_tallyFile_counts files c
    have hsub := processSubdirs_counts (files.foldl tallyFile c) subdirs
    show (processSubdirs (files.foldl tallyFile c) subdirs).total
        = c.total + countVids (.node files subdirs)
      ∧ (processSubdirs (files.foldl tallyFile c) subdirs).success
          + (processSubdirs (files.foldl tallyFile c) subdirs).error
        = c.success + c.error + countVids (.node files subdirs)
    unfold countVids
    constructor
    · rw [hsub.1, hfold.1]
      omega
    · rw [hsub.2, hfold.2]
      omega

theorem processSubdirs_counts (c : Counts) (ds : List DirTree) :
    (processSubdirs c ds).total = c.total + countVidsList ds
    ∧ (processSubdirs c ds).success + (processSubdirs c ds).error
      = c.success + c.error + countVidsList ds :=
  match ds with
  | [] => by
    unfold processSubdirs countVidsList
    exact ⟨by omega, by omega⟩
  | d :: rest => by
    have hd := process_directory_counts c d
    have hr := processSubdirs_counts (process_directory c d) rest
    show (processSubdirs (process_directory c d) rest).total
        = c.total + countVidsList (d :: rest)
      ∧ (processSubdirs (process_directory c d) rest).success
          + (processSubdirs (process_directory c d) rest).error
        = c.success + c.error + countVidsList (d :: rest)
    unfold countVidsList
    constructor
    · rw [hr.1, hd.1]
      omega
    · rw [hr.2, hd.2]
      omega

end

/-- C9: a per-file extraction failure is only counted and never aborts the
traversal — after the full traversal the reported counts satisfy both
total = success + error and total = number of media files discovered in
every traversed directory, whatever the per-file failure pattern. -/
theorem c9_batch_counts (root : DirTree) :
    (process_video_folder root).total
      = (process_video_folder root).success + (process_video_folder root).error
    ∧ (process_video_folder root).total = countVidsList root.subdirs := by
  have h := processSubdirs_counts ⟨0, 0, 0⟩ root.subdirs
  have h1 : (processSubdirs ⟨0, 0, 0⟩ root.subdirs).total
      = 0 + countVidsList root.subdirs := h.1
  have h2 : (processSubdirs ⟨0, 0, 0⟩ root.subdirs).success
        + (processSubdirs ⟨0, 0, 0⟩ root.subdirs).error
      = 0 + 0 + countVidsList root.subdirs := h.2
  unfold process_video_folder
  constructor
  · rw [h1, h2]
  · rw [h1]
    omega

/-- Result of a run of `main` of generate_thumbnails.py: whether the
install guidance was printed, whether the traversal was entered, how many
filesystem writes were performed (directory creations plus thumbnail
files), and the counts reported when the traversal ran. -/
structure MainResult where
  guidance : Bool
  traversed : Bool
  writes : Nat
  counts : Option Counts
deriving DecidableEq

mutual

/-- Writes performed by `process_directory` on one directory: the mkdir of
the mirrored output directory, one thumbnail file per successful
extraction, and the writes of the subdirectories. -/
def writesDir : DirTree → Nat
  | .node files subdirs =>
    1 + (files.filter (fun f => isVideoFile f.name && f.good)).length
      + writesList subdirs

/-- Writes across a list of directories. -/
def writesList : List DirTree → Nat
  | [] => 0
  | d :: ds => writesDir d + writesList ds

end

/-- Writes of `process_video_folder`: the mkdir of the output root plus
the writes of every traversed category directory. -/
def writesRun (root : DirTree) : Nat := 1 + writesList root.subdirs

/-- Model of `main` of generate_thumbnails.py: if `check_ffmpeg` fails the
install guidance is printed and the function returns before any traversal
or write; if the media folder is missing it likewise returns; otherwise
`process_video_folder` runs. -/
def mainRun (ffmpegOk folderExists : Bool) (root : DirTree) : MainResult :=
  if ffmpegOk = false then ⟨true, false, 0, none⟩
  else if folderExists = false then ⟨false, false, 0, none⟩
  else ⟨false, true, writesRun root, some (process_video_folder root)⟩

/-- C8: when the external transcoding tool is unavailable, the run aborts
before any traversal begins, surfaces the install guidance, and performs
no filesystem write at all, whatever the media tree looks like. -/
theorem c8_missing_ffmpeg_aborts (folderExists : Bool) (root : DirTree) :
    mainRun false folderExists root
      = ⟨true, false, 0, none⟩ := rfl

/-- A scanned video record (the dictionary built by `scan_folder`). -/
structure Video where
  name : List Char
  title : List Char
  duration : List Char
  path : List Char
  trending : Bool
deriving DecidableEq

/-- The `self.video_data` mapping of the updater: one record list per
primary category. -/
structure VideoData where
  neutral : List Video
  realistic : List Video
  sky : List Video
  mountain : List Video
  forest : List Video
  ocean : List Video
  funny : List Video
deriving DecidableEq

/-- The primary category keys. -/
inductive CatKey where
  | neutral | realistic | sky | mountain | forest | ocean | funny
deriving DecidableEq

/-- Record list of one primary category. -/
def getCat (d : VideoData) : CatKey → List Video
  | .neutral => d.neutral
  | .realistic => d.realistic
  | .sky => d.sky
  | .mountain => d.mountain
  | .forest => d.forest
  | .ocean => d.ocean
  | .funny => d.funny

/-- The key rendered in the serialization. -/
def catName : CatKey → List Char
  | .neutral => s2l "neutral"
  | .realistic => s2l "realistic"
  | .sky => s2l "sky"
  | .mountain => s2l "mountain"
  | .forest => s2l "forest"
  | .ocean => s2l "ocean"
  | .funny => s2l "funny"

/-- The fixed key order of the serialization loop of
`prepare_video_data_js`. -/
def catOrder : List CatKey :=
  [.neutral, .realistic, .sky, .mountain, .forest, .ocean, .funny]

/-- Single-quote character, used by the record literals. -/
def sq : Char := Char.ofNat 39

/-- The record literal of the serializer (one f-string per video): fields
name, title, duration, path, and `, trending: true` exactly when the flag
is set. -/
def renderRecord (v : Video) : List Char :=
  s2l "                \x7b name: " ++ [sq] ++ v.name ++ [sq]
    ++ s2l ", title: " ++ [sq] ++ v.title ++ [sq]
    ++ s2l ", duration: " ++ [sq] ++ v.duration ++ [sq]
    ++ s2l ", path: " ++ [sq] ++ v.path ++ [sq]
    ++ (if v.trending then s2l ", trending: true" else [])
    ++ s2l " \x7d,"

/-- The lines a category contributes to `format_video_data`: nothing when
its record list is empty (`if key in data and data[key]`), otherwise a
header line, one line per record, and a footer line. -/
def blockLines (d : VideoData) (k : CatKey) : List (List Char) :=
  if getCat d k = [] then []
  else (s2l "            " ++ catName k ++ s2l ": [")
    :: ((getCat d k).map renderRecord ++ [s2l "            ],"])

/-- The line list of `format_video_data`: the literal `all: []` line, then
the block of every category of the fixed order. -/
def jsLines (d : VideoData) : List (List Char) :=
  (s2l "            all: [],") :: catOrder.flatMap (blockLines d)

/-- The join of `format_video_data`.  The source file reads
`return '\\n'.join(lines)`, a backslash-escaped literal, so the separator
is the two-character sequence backslash n, not a newline. -/
def joinNl (lines : List (List Char)) : List Char :=
  (lines.intersperse (s2l "\\n")).flatten

/-- The fixed aggregate-assignment block appended by
`prepare_video_data_js`: it recomputes `videoData.all` from the seven
primary categories and `videoData.nature` from the four nature
subcategories, in the fixed order of the source. -/
def aggBlock : List Char :=
  s2l "\n        \n        // 合併所有影片到 all 分類\n        videoData.all = [\n"
    ++ s2l "            ...videoData.neutral,\n            ...videoData.realistic,\n"
    ++ s2l "            ...videoData.sky,\n            ...videoData.mountain,\n"
    ++ s2l "            ...videoData.forest,\n            ...videoData.ocean,\n"
    ++ s2l "            ...videoData.funny\n        ];\n\n"
    ++ s2l "        // 合併自然分類的子系列\n        videoData.nature = [\n"
    ++ s2l "            ...videoData.sky,\n            ...videoData.mountain,\n"
    ++ s2l "            ...videoData.forest,\n            ...videoData.ocean\n        ];"

/-- Model of `VideoDataUpdater.prepare_video_data_js`: the joined lines of
`format_video_data` followed by the aggregate block.  (The merged `all`
and `nature` lists the source also builds are never read by the fixed-key
loop, so they do not influence the output.) -/
def prepare_video_data_js (d : VideoData) : List Char :=
  joinNl (jsLines d) ++ aggBlock

/-- Transcription of the words of the (amended) claim C4: the serialization
is the `all: []` placeholder line followed, for each nonempty primary
category in the fixed order, by a block — a separator, the header line of
the category, one separator-prefixed record line per record, a separator
and the footer line — and finally the appended aggregate-assignment
block. -/
def specBlock (d : VideoData) (k : CatKey) : List Char :=
  if getCat d k = [] then []
  else (s2l "\\n" ++ (s2l "            " ++ catName k ++ s2l ": ["))
    ++ (((getCat d k).map (fun v => s2l "\\n" ++ renderRecord v)).flatten
      ++ (s2l "\\n" ++ s2l "            ],"))

/-- The serialization as the specification describes it. -/
def specSerialize (d : VideoData) : List Char :=
  s2l "            all: [],"
    ++ ((catOrder.map (specBlock d)).flatten ++ aggBlock)

theorem interjoin (sep : List Char) :
    ∀ (x : List Char) (L : List (List Char)),
      ((x :: L).intersperse sep).flatten
        = x ++ (L.map (fun y => sep ++ y)).flatten := by
  intro x L
  induction L generalizing x with
  | nil => simp
  | cons y L ih =>
    rw [show ((x :: y :: L).intersperse sep)
        = x :: sep :: ((y :: L).intersperse sep) from rfl]
    rw [List.flatten_cons, List.flatten_cons, ih y]
    simp [List.append_assoc]

theorem bind_map_join (g : List Char → List Char) (f : CatKey → List (List Char)) :
    ∀ L : List CatKey,
      ((L.flatMap f).map g).flatten
        = (L.map (fun k => ((f k).map g).flatten)).flatten := by
  intro L
  induction L with
  | nil => rfl
  | cons k L ih =>
    rw [List.flatMap_cons, List.map_append, List.flatten_append, ih,
      List.map_cons, List.flatten_cons]

theorem specBlock_eq (d : VideoData) (k : CatKey) :
    specBlock d k
      = ((blockLines d k).map (fun y => s2l "\\n" ++ y)).flatten := by
  unfold specBlock blockLines
  by_cases h : getCat d k = []
  · rw [if_pos h, if_pos h]
    rfl
  · rw [if_neg h, if_neg h]
    simp only [List.map_cons, List.flatten_cons, List.map_append, List.flatten_append,
      List.map_map, Function.comp_def, List.flatten, List.append_nil]

set_option maxRecDepth 40000 in
/-- C4 (counterexample): the serializer omits the block of an empty
primary category (`if key in data and data[key]` skips it): with every
category empty the output contains no `neutral: [` block header at all,
while with one neutral record the header is present — so the claim that
one block is emitted per primary category fails. -/
theorem c4_counterexample :
    containsSub (prepare_video_data_js ⟨[], [], [], [], [], [], []⟩)
        (s2l "neutral: [") = false
    ∧ containsSub (prepare_video_data_js
        ⟨[⟨s2l "a.mp4", s2l "a", s2l "0:30", s2l "p/a.mp4", false⟩],
          [], [], [], [], [], []⟩)
        (s2l "neutral: [") = true := by
  constructor
  · decide
  · decide

/-- C4 (amended): the serialization equals, for every catalog, the fixed
`all: []` placeholder line followed by one block per nonempty primary
category in the fixed order neutral, realistic, sky, mountain, forest,
ocean, funny — each record a fixed-shape literal with fields name, title,
duration, path, and a trending field present exactly when the flag is true
— followed by the appended aggregate-assignment block that recomputes the
`all` and grouped `nature` aggregates from the primaries in a fixed
category order. -/
theorem c4_serialization (d : VideoData) :
    prepare_video_data_js d = specSerialize d := by
  unfold prepare_video_data_js specSerialize joinNl jsLines
  rw [interjoin, bind_map_join]
  simp only [catOrder, List.map_cons, List.map_nil, specBlock_eq]
  simp [List.append_assoc]

end SVLib
